import Mathlib

/-!
Verification of the `lc` line-counting program (src/main.rs).

The filesystem is modelled as a tree (`FSEntry`): a readable regular file
carries its raw on-disk bytes, a readable directory carries its entries,
and the two `bad` constructors stand for the entries whose metadata/content
read (`badFile`) or directory listing (`badDir`) fails with an `io::Error`.
File names are byte strings (`List Nat`), as `PathBuf`/`OsStr` are byte
sequences; names are compared byte-wise, which is how `Vec<PathBuf>::sort`
orders siblings of one directory.

Pure text transforms of the source are embedded byte-for-byte:
`lines_count` embeds `String::from_utf8_lossy(bytes).lines().count()` and
`from_utf8_lossy_len` embeds `String::from_utf8_lossy(bytes).len()`
(U+FFFD substitution of maximal subparts, three bytes per replacement).
`content_type` embeds the classifier `impl Content for Path` including its
panic path (`is_unix_executable().unwrap()`), hence the `Option` result.
-/

namespace LC

/-! ### Byte-level text helpers -/

/-- Splits a byte string at each 0x0A byte, keeping every (possibly empty)
segment, as `str::split('\n')` does: `splitNl [97,10] = [[97],[]]`. -/
def splitNl : List Nat → List (List Nat)
  | [] => [[]]
  | b :: rest =>
    if b = 10 then [] :: splitNl rest
    else
      match splitNl rest with
      | g :: gs => (b :: g) :: gs
      | [] => [[b]]

theorem splitNl_ne_nil (bs : List Nat) : splitNl bs ≠ [] := by
  induction bs with
  | nil => simp [splitNl]
  | cons b rest ih =>
    simp only [splitNl]
    split
    · simp
    · split
      · simp
      · simp

/-- Embeds `str::lines()` at the byte level: the segments between 0x0A
bytes, except that a final empty segment (from a trailing newline, or from
empty input) is dropped.  Rust's `lines()` additionally strips a `\r`
before each `\n`, which never changes the number of lines, so carriage
returns need no special handling here. -/
def linesOf (bs : List Nat) : List (List Nat) :=
  let gs := splitNl bs
  if gs.getLast? = some [] then gs.dropLast else gs

/-- Embeds `content.lines().count()` (src/main.rs:197,290).  `content` is
the lossy decode of the file bytes; ASCII bytes — in particular 0x0A —
always decode to themselves and U+FFFD is not a newline, so the line
structure of the decoded string is the line structure of the raw bytes. -/
def lines_count (bs : List Nat) : Nat :=
  (linesOf bs).length

/-- True for UTF-8 continuation bytes 0x80–0xBF. -/
def isCont (b : Nat) : Bool :=
  0x80 ≤ b && b ≤ 0xBF

/-- Valid second byte of a three-byte UTF-8 sequence headed by `b`. -/
def validSecond3 (b c : Nat) : Bool :=
  if b = 0xE0 then 0xA0 ≤ c && c ≤ 0xBF
  else if b = 0xED then 0x80 ≤ c && c ≤ 0x9F
  else isCont c

/-- Valid second byte of a four-byte UTF-8 sequence headed by `b`. -/
def validSecond4 (b c : Nat) : Bool :=
  if b = 0xF0 then 0x90 ≤ c && c ≤ 0xBF
  else if b = 0xF4 then 0x80 ≤ c && c ≤ 0x8F
  else isCont c

/-- Embeds `String::from_utf8_lossy(bytes).len()`: the byte length of the
lossily decoded string.  Valid sequences re-encode to their own length;
each maximal invalid subpart is replaced by one U+FFFD, which is three
bytes long.  Validation follows Rust's `core::str::validations`: after an
invalid or truncated sequence, decoding resumes at the first unconsumed
byte. -/
def from_utf8_lossy_len : List Nat → Nat
  | [] => 0
  | b :: rest =>
    if b ≤ 0x7F then 1 + from_utf8_lossy_len rest
    else if b < 0xC2 then 3 + from_utf8_lossy_len rest
    else if b ≤ 0xDF then
      match rest with
      | [] => 3
      | c :: rest2 =>
        if isCont c then 2 + from_utf8_lossy_len rest2
        else 3 + from_utf8_lossy_len (c :: rest2)
    else if b ≤ 0xEF then
      match rest with
      | [] => 3
      | c :: rest2 =>
        if validSecond3 b c then
          match rest2 with
          | [] => 3
          | d :: rest3 =>
            if isCont d then 3 + from_utf8_lossy_len rest3
            else 3 + from_utf8_lossy_len (d :: rest3)
        else 3 + from_utf8_lossy_len (c :: rest2)
    else if b ≤ 0xF4 then
      match rest with
      | [] => 3
      | c :: rest2 =>
        if validSecond4 b c then
          match rest2 with
          | [] => 3
          | d :: rest3 =>
            if isCont d then
              match rest3 with
              | [] => 3
              | e :: rest4 =>
                if isCont e then 4 + from_utf8_lossy_len rest4
                else 3 + from_utf8_lossy_len (e :: rest4)
            else 3 + from_utf8_lossy_len (d :: rest3)
        else 3 + from_utf8_lossy_len (c :: rest2)
    else 3 + from_utf8_lossy_len rest

/-- Per-file byte contribution of both counters (src/main.rs:198-200 and
291-297): the decoded length when the byte toggle is on, nothing
otherwise. -/
def fileBytes (byte_toggle : Bool) (bs : List Nat) : Nat :=
  if byte_toggle then from_utf8_lossy_len bs else 0

/-- Whether a byte string is valid UTF-8, with the same sequence tests as
`from_utf8_lossy_len`.  `OsStr::to_str` answers `Some` exactly on valid
byte strings, and `str::from_utf8` (hence `fs::read_to_string`) succeeds
exactly there. -/
def isValidUtf8 : List Nat → Bool
  | [] => true
  | b :: rest =>
    if b ≤ 0x7F then isValidUtf8 rest
    else if b < 0xC2 then false
    else if b ≤ 0xDF then
      match rest with
      | [] => false
      | c :: rest2 => isCont c && isValidUtf8 rest2
    else if b ≤ 0xEF then
      match rest with
      | [] => false
      | c :: rest2 =>
        validSecond3 b c &&
          match rest2 with
          | [] => false
          | d :: rest3 => isCont d && isValidUtf8 rest3
    else if b ≤ 0xF4 then
      match rest with
      | [] => false
      | c :: rest2 =>
        validSecond4 b c &&
          match rest2 with
          | [] => false
          | d :: rest3 =>
            isCont d &&
              match rest3 with
              | [] => false
              | e :: rest4 => isCont e && isValidUtf8 rest4
    else false

/-- Strips one trailing carriage return, as `str::lines()` does from each
newline-terminated line. -/
def stripCR (g : List Nat) : List Nat :=
  if g.getLast? = some 13 then g.dropLast else g

/-- Strips one leading `/` (0x2F), as `fetch_gitignore` does from each
pattern line (src/main.rs:174-176). -/
def stripSlash (g : List Nat) : List Nat :=
  if g.head? = some 47 then g.tail else g

/-- Embeds the line loop of `fetch_gitignore` (src/main.rs:172-178) on the
byte content of a `.gitignore` file (already known to be valid UTF-8, or
`read_to_string` would have failed): `contents.lines()` — newline-split
segments, a carriage return stripped from each terminated line, the final
unterminated segment kept verbatim — each with a leading slash removed. -/
def parsePatterns (bs : List Nat) : List (List Nat) :=
  let gs := splitNl bs
  let init := gs.dropLast.map fun g => stripSlash (stripCR g)
  if gs.getLast? = some [] then init
  else init ++ (gs.drop (gs.length - 1)).map stripSlash

/-! ### Content classifier (src/main.rs:10-161) -/

/-- The seven display categories of `enum ContentType`. -/
inductive ContentType where
  | CODE
  | MEDIA
  | EXECUTABLE
  | NORMAL
  | TEXT
  | LICENSE
  | MAKEFILE
deriving DecidableEq

/-- The `code_extensions` table (src/main.rs:53-120). -/
def code_extensions : List String :=
  ["c", "h", "cpp", "hpp", "cc", "cxx", "hh", "hxx",
   "cs", "java", "class", "jar", "kt", "kts",
   "js", "jsx", "mjs", "cjs", "ts", "tsx",
   "py", "pyc", "pyd", "pyo", "rb", "erb",
   "php", "phar", "go", "rs", "rlib", "swift", "dart",
   "scala", "lua", "r", "pl", "pm", "sql",
   "html", "htm", "xhtml", "xml", "css", "scss", "sass",
   "json", "yaml", "yml", "toml", "env", "ini", "cfg",
   "md", "rst", "cmake", "mk",
   "dockerfile", "dockerignore", "gitignore", "gitattributes"]

/-- The `media_extensions` table (src/main.rs:122-129). -/
def media_extensions : List String :=
  ["png", "jpg", "jpeg", "gif", "bmp", "tiff", "tif", "webp", "svg", "ico",
   "heic", "avif",
   "mp3", "wav", "flac", "aac", "ogg", "opus", "m4a", "wma", "aiff", "alac",
   "amr",
   "mp4", "mkv", "avi", "mov", "wmv", "flv", "webm", "m4v", "mpeg", "mpg",
   "3gp", "ogv"]

/-- The `executable_extensions` table (src/main.rs:131-137). -/
def executable_extensions : List String :=
  ["exe", "bat", "cmd", "msi",
   "run", "out", "bin", "app",
   "jar", "sh", "bash", "zsh",
   "ps1", "psm1", "psd1"]

/-- The `text_extensions` table (src/main.rs:139-143). -/
def text_extensions : List String :=
  ["txt", "md", "rtf", "csv", "log",
   "pdf", "doc", "docx", "odt", "tex", "pages"]

/-- Embeds `is_unix_executable` (src/main.rs:39-45): whether any of the
three execute permission bits is set.  `none` stands for a failed
`metadata()` call, in which case the source returns `Err`. -/
def is_unix_executable (mode : Option Nat) : Option Bool :=
  mode.map fun m => decide (Nat.land m 0o111 ≠ 0)

/-- Embeds `content_type` (src/main.rs:52-161).  `ext` is
`extension().unwrap_or_default()` (so the empty string when the name has
no extension) and `filename` is `file_name()`.  `mode` is the permission
word fetched by `is_unix_executable`; `none` means that metadata fetch
fails, and the source then panics on `unwrap()` — modelled as a `none`
result.  Because `||` short-circuits, the unwrap is only reached when the
extension is in none of the code, media and executable tables. -/
def content_type (ext filename : String) (mode : Option Nat) :
    Option ContentType :=
  if code_extensions.contains ext then some .CODE
  else if media_extensions.contains ext then some .MEDIA
  else if executable_extensions.contains ext then some .EXECUTABLE
  else
    match is_unix_executable mode with
    | none => none
    | some ex =>
      if ex && !text_extensions.contains ext then some .EXECUTABLE
      else if text_extensions.contains ext then some .TEXT
      else if filename = "LICENSE" then some .LICENSE
      else if filename = "Makefile" then some .MAKEFILE
      else some .NORMAL

/-! ### The filesystem model -/

/-- A filesystem subtree.  Names and file contents are raw byte strings.
`badFile` is an entry whose `fs::metadata` or `fs::read` call fails;
`badDir` is a directory whose metadata is fine but whose `fs::read_dir`
listing fails. -/
inductive FSEntry where
  | file (name : List Nat) (bytes : List Nat)
  | badFile (name : List Nat)
  | dir (name : List Nat) (entries : List FSEntry)
  | badDir (name : List Nat)

/-- Name of an entry. -/
def FSEntry.name : FSEntry → List Nat
  | .file n _ => n
  | .badFile n => n
  | .dir n _ => n
  | .badDir n => n

/-- Embeds `is_visible` (src/main.rs:24-32): an entry is visible when the
first byte of its name is not `.` (0x2E).  The source reaches the answer
through `file_name().unwrap().to_str().unwrap()`, so on a name that is
not valid UTF-8 it does not return a Bool — it panics; `none` models that
abort. -/
def is_visible (nm : List Nat) : Option Bool :=
  if isValidUtf8 nm then some (!(nm.head? = some 46 : Bool)) else none

/-- The file name `.gitignore` as bytes, the name probed by
`fetch_gitignore` (src/main.rs:164). -/
def gitignoreName : List Nat := [46, 103, 105, 116, 105, 103, 110, 111, 114, 101]

/-- Embeds `fetch_gitignore(dir_path)` (src/main.rs:163-181) on the listed
entries of the directory, as invoked through the `?` at src/main.rs:234:
`none` is a propagated `Err`.  When no entry is named `.gitignore` —
also when that entry's metadata cannot be read, making `Path::exists()`
answer `false` — the fetch returns an empty pattern list.  When the entry
is a readable file, `fs::read_to_string` succeeds on valid UTF-8 content
(parsed into patterns) and fails otherwise; when it is a directory,
listable or not, `read_to_string` fails. -/
def fetch_gitignore (es : List FSEntry) : Option (List (List Nat)) :=
  match es.find? fun e => e.name == gitignoreName with
  | Option.none => some []
  | some (.file _ bs) =>
    if isValidUtf8 bs then some (parsePatterns bs) else none
  | some (.badFile _) => some []
  | some (.dir _ _) => none
  | some (.badDir _) => none

/-- Byte-wise lexicographic comparison, the order `Vec<PathBuf>::sort`
uses on the sibling paths of one directory (they share the directory
prefix, so path order is name order). -/
def bytesLe : List Nat → List Nat → Bool
  | [], _ => true
  | _ :: _, [] => false
  | a :: as, b :: bs =>
    if a < b then true
    else if b < a then false
    else bytesLe as bs

theorem bytesLe_total : ∀ a b : List Nat, bytesLe a b = true ∨ bytesLe b a = true := by
  intro a
  induction a with
  | nil => intro b; left; rfl
  | cons x as ih =>
    intro b
    cases b with
    | nil => right; rfl
    | cons y bs =>
      simp only [bytesLe]
      rcases Nat.lt_trichotomy x y with h | h | h
      · left; simp [h]
      · subst h
        rcases ih bs with h2 | h2 <;> simp [h2, Nat.lt_irrefl]
      · right; simp [h, Nat.not_lt.mpr (Nat.le_of_lt h)]

theorem bytesLe_trans :
    ∀ a b c : List Nat, bytesLe a b = true → bytesLe b c = true →
      bytesLe a c = true := by
  intro a
  induction a with
  | nil => intro b c _ _; rfl
  | cons x as ih =>
    intro b c hab hbc
    cases b with
    | nil => simp [bytesLe] at hab
    | cons y bs =>
      cases c with
      | nil => simp [bytesLe] at hbc
      | cons z cs =>
        simp only [bytesLe] at hab hbc ⊢
        rcases Nat.lt_trichotomy x y with h1 | h1 | h1
        · rcases Nat.lt_trichotomy y z with h2 | h2 | h2
          · simp [Nat.lt_trans h1 h2]
          · subst h2; simp [h1]
          · simp [Nat.not_lt.mpr (Nat.le_of_lt h2), h2] at hbc
        · subst h1
          rcases Nat.lt_trichotomy x z with h2 | h2 | h2
          · simp [h2]
          · subst h2
            simp only [if_neg (Nat.lt_irrefl _)] at hab hbc ⊢
            exact ih bs cs hab hbc
          · simp [Nat.not_lt.mpr (Nat.le_of_lt h2), h2] at hbc
        · simp [Nat.not_lt.mpr (Nat.le_of_lt h1), h1] at hab

/-- Sibling order used by the tree renderer: compare entry names
byte-wise. -/
def nameLe (a b : FSEntry) : Prop := bytesLe a.name b.name = true

instance : DecidableRel nameLe := fun a b =>
  inferInstanceAs (Decidable (bytesLe a.name b.name = true))

instance : IsTotal FSEntry nameLe :=
  ⟨fun a b => bytesLe_total a.name b.name⟩

instance : IsTrans FSEntry nameLe :=
  ⟨fun _ _ _ h1 h2 => bytesLe_trans _ _ _ h1 h2⟩

/-! ### The silent aggregator `linecount` (src/main.rs:183-220) -/

/-- Embeds the body of `linecount`'s `for` loop over the listed entries of
one directory.  A file's lines (and, under the byte toggle, its decoded
byte length) are added to the running totals; a failing `metadata`/`read`
call (`badFile`) propagates as `Err` — `none` — aborting the whole call;
for a subdirectory the recursive `linecount` result is merged, except that
a recursive `Err` is caught, logged and skipped (src/main.rs:207-213), so
an unlistable subdirectory (`badDir`, whose recursive call fails at
`fs::read_dir`) contributes nothing.  `ignore_toggle` is threaded through
the recursion exactly as in the source: it is never read. -/
def linecountEntries (byte_toggle ignore_toggle : Bool) :
    List FSEntry → Option (Nat × Nat)
  | [] => some (0, 0)
  | .file _ bs :: rest =>
    (linecountEntries byte_toggle ignore_toggle rest).map fun p =>
      (lines_count bs + p.1, fileBytes byte_toggle bs + p.2)
  | .badFile _ :: _ => none
  | .dir _ es :: rest =>
    match linecountEntries byte_toggle ignore_toggle es with
    | none => linecountEntries byte_toggle ignore_toggle rest
    | some q =>
      (linecountEntries byte_toggle ignore_toggle rest).map fun p =>
        (q.1 + p.1, q.2 + p.2)
  | .badDir _ :: rest => linecountEntries byte_toggle ignore_toggle rest

/-- Embeds `linecount(dir, byte_toggle, ignore_toggle)` on the subtree
rooted at `dir` (the `None`-means-current-directory convenience of the
source is resolved before entering the model).  Listing the root itself
fails — `fs::read_dir(dir_path)?` — when the root is not a listable
directory. -/
def linecount (byte_toggle ignore_toggle : Bool) (dir : FSEntry) :
    Option (Nat × Nat) :=
  match dir with
  | .dir _ es => linecountEntries byte_toggle ignore_toggle es
  | _ => none

/-! ### Reference sums over the tree (specification side) -/

/-- Whether every node of every subtree in the list is readable: no
`badFile` and no `badDir` anywhere, so no subtree is skipped. -/
def goodList : List FSEntry → Bool
  | [] => true
  | .file _ _ :: rest => goodList rest
  | .badFile _ :: _ => false
  | .badDir _ :: _ => false
  | .dir _ es :: rest => goodList es && goodList rest

/-- Sum of the line counts of every regular file reachable from the listed
subtrees. -/
def sumLines : List FSEntry → Nat
  | [] => 0
  | .file _ bs :: rest => lines_count bs + sumLines rest
  | .badFile _ :: rest => sumLines rest
  | .badDir _ :: rest => sumLines rest
  | .dir _ es :: rest => sumLines es + sumLines rest

/-- Sum of the byte measurements of every regular file reachable from the
listed subtrees, under the given byte toggle. -/
def sumBytes (byte_toggle : Bool) : List FSEntry → Nat
  | [] => 0
  | .file _ bs :: rest => fileBytes byte_toggle bs + sumBytes byte_toggle rest
  | .badFile _ :: rest => sumBytes byte_toggle rest
  | .badDir _ :: rest => sumBytes byte_toggle rest
  | .dir _ es :: rest => sumBytes byte_toggle es + sumBytes byte_toggle rest

/-! ### The tree renderer `linecount_verbose` (src/main.rs:224-365) -/

/-- The partition predicate of src/main.rs:273: `entry.is_file()`.  It
follows metadata, so it is `true` exactly for readable regular files; an
entry whose metadata cannot be read answers `false` and lands in the
directory group. -/
def isFileE : FSEntry → Bool
  | .file _ _ => true
  | _ => false

/-- Embeds src/main.rs:264-281: the listed entries are partitioned into
files and the rest, each group is sorted, and the file group is chained
before the directory group. -/
def renderOrder (es : List FSEntry) : List FSEntry :=
  (es.filter isFileE).insertionSort nameLe ++
    (es.filter fun e => !isFileE e).insertionSort nameLe

theorem renderOrder_perm (es : List FSEntry) :
    List.Perm (renderOrder es) es :=
  ((List.perm_insertionSort nameLe _).append
    (List.perm_insertionSort nameLe _)).trans
    (List.filter_append_perm _ es)

/-- Number of nodes of the subtrees in the list — the termination measure
of the renderer model. -/
def nodesL : List FSEntry → Nat
  | [] => 0
  | .file _ _ :: rest => 1 + nodesL rest
  | .badFile _ :: rest => 1 + nodesL rest
  | .badDir _ :: rest => 1 + nodesL rest
  | .dir _ es :: rest => 1 + nodesL es + nodesL rest

theorem nodesL_cons (e : FSEntry) (rest : List FSEntry) :
    nodesL (e :: rest) = nodesL [e] + nodesL rest := by
  cases e <;> simp [nodesL]

theorem nodesL_eq_sum (l : List FSEntry) :
    nodesL l = (l.map fun e => nodesL [e]).sum := by
  induction l with
  | nil => simp [nodesL]
  | cons e rest ih => rw [nodesL_cons, List.map_cons, List.sum_cons, ih]

theorem nodesL_perm {l1 l2 : List FSEntry} (h : List.Perm l1 l2) :
    nodesL l1 = nodesL l2 := by
  rw [nodesL_eq_sum, nodesL_eq_sum]
  exact (h.map fun e => nodesL [e]).sum_eq

theorem nodesL_renderOrder (es : List FSEntry) :
    nodesL (renderOrder es) = nodesL es :=
  nodesL_perm (renderOrder_perm es)

/-- Outcome of one `linecount_verbose` call.  `panic` models a process
abort — the `.expect("Failed to read directory")` on src/main.rs:260-261,
the `to_str().unwrap()` inside `is_visible` (src/main.rs:27), or the
`&filename[..60]` slice on a non-boundary byte (src/main.rs:308) — `err` a
returned `io::Error`, and `ok` a returned `(total_lines, total_bytes)`
pair. -/
inductive RunResult where
  | panic
  | err
  | ok (lines bytes : Nat)
deriving DecidableEq

/-- The `FILENAME_RENDER_LIMIT` constant (src/main.rs:8). -/
def FILENAME_RENDER_LIMIT : Nat := 60

/-- Embeds src/main.rs:307-311: a name longer than the render limit is
truncated to its first 60 bytes with an ellipsis `...` appended.  The
slice `&filename[..60]` panics when byte 60 is not a character boundary —
for the valid-UTF-8 strings that reach this site, exactly when byte 60 is
a continuation byte; `none` models that abort. -/
def displayName (nm : List Nat) : Option (List Nat) :=
  if nm.length > FILENAME_RENDER_LIMIT then
    if isCont (nm.getD FILENAME_RENDER_LIMIT 0) then none
    else some (nm.take FILENAME_RENDER_LIMIT ++ [46, 46, 46])
  else some nm

/-- Embeds the `for` loop of src/main.rs:283-363 over the sorted entry
list of one directory, with `ignore_vec` the patterns fetched for this
directory.  A readable file adds its measurement, after which the print
site runs: `is_visible` panics on a non-UTF-8 name, and a visible,
non-ignored name panics in the truncation when `displayName` does (the
`&&` at src/main.rs:299 short-circuits, and `to_string_lossy` equals the
name bytes for the valid names that reach it).  An entry whose
`fs::metadata(path)?` or `fs::read(&path)?` fails ends the call with
`Err`.  A subdirectory is rendered recursively: its own `.gitignore`
fetch may fail (`Err`, silently skipped by this level per
src/main.rs:355-357, like any recursive `Err`), an unlistable
subdirectory panics the process at the `.expect`, and a returned total is
merged (bytes only under the byte toggle, src/main.rs:358-361). -/
def lcvEntries (byte_toggle : Bool) (ignore_vec : List (List Nat)) :
    List FSEntry → RunResult
  | [] => .ok 0 0
  | .file nm bs :: rest =>
    match is_visible nm with
    | Option.none => .panic
    | some vis =>
      if vis && !(ignore_vec.contains nm) && !(displayName nm).isSome then
        .panic
      else
        match lcvEntries byte_toggle ignore_vec rest with
        | .ok l b => .ok (lines_count bs + l) (fileBytes byte_toggle bs + b)
        | r => r
  | .badFile _ :: _ => .err
  | .badDir _ :: _ => .panic
  | .dir _ es :: rest =>
    match fetch_gitignore es with
    | Option.none => lcvEntries byte_toggle ignore_vec rest
    | some ig2 =>
      match lcvEntries byte_toggle ig2 (renderOrder es) with
      | .panic => .panic
      | .err => lcvEntries byte_toggle ignore_vec rest
      | .ok l b =>
        match lcvEntries byte_toggle ignore_vec rest with
        | .ok l2 b2 => .ok (l + l2) ((if byte_toggle then b else 0) + b2)
        | r => r
termination_by l => nodesL l
decreasing_by
  all_goals (simp [nodesL, nodesL_renderOrder]; try omega)

/-- Embeds `linecount_verbose(dir, byte_toggle, ignore_toggle, indent)` on
the subtree rooted at `dir`.  The call first runs the fallible
`fetch_gitignore(&dir_path)?` (src/main.rs:234) — a `.gitignore` entry
that is a directory or holds non-UTF-8 content makes the whole call
return `Err` before anything is listed — then walks the sorted entries
with the fetched patterns.  An unlistable root panics at the `.expect`
(for a non-directory root the `.gitignore` probe under it finds nothing,
so `read_dir` is reached and panics).  The printed header uses
`to_str().unwrap_or_default()`, so directory names never panic.  The
`ignore_toggle` argument of the source is only mentioned by the
commented-out filter of src/main.rs:267-271, so it is dropped here. -/
def linecount_verbose (byte_toggle : Bool) (dir : FSEntry) : RunResult :=
  match dir with
  | .dir _ es =>
    match fetch_gitignore es with
    | Option.none => .err
    | some ig => lcvEntries byte_toggle ig (renderOrder es)
  | _ => .panic

/-- Embeds which file names the loop of src/main.rs:283-347 prints for one
directory level: the file group in sorted order, keeping exactly the
entries that are visible and not matched by the pattern list, with the
rendered (possibly truncated) name; a name whose visibility check or
truncation panics contributes no line.  `ignore_vec` is the
`fetch_gitignore` result for this directory. -/
def filePrints (ignore_vec : List (List Nat)) (es : List FSEntry) :
    List (List Nat) :=
  ((es.filter isFileE).insertionSort nameLe).filterMap fun e =>
    if is_visible e.name = some true ∧ ignore_vec.contains e.name = false then
      displayName e.name
    else none

/-! ### Helper lemmas -/

theorem goodList_cons (e : FSEntry) (rest : List FSEntry) :
    goodList (e :: rest) = (goodList [e] && goodList rest) := by
  cases e <;> simp [goodList]

theorem goodList_eq_all (l : List FSEntry) :
    goodList l = l.all fun e => goodList [e] := by
  induction l with
  | nil => simp [goodList]
  | cons e rest ih => rw [goodList_cons, List.all_cons, ih]

theorem goodList_perm {l1 l2 : List FSEntry} (h : List.Perm l1 l2) :
    goodList l1 = goodList l2 := by
  rw [goodList_eq_all, goodList_eq_all]
  apply Bool.eq_iff_iff.mpr
  simp only [List.all_eq_true]
  constructor
  · intro ha e he; exact ha e (h.mem_iff.mpr he)
  · intro ha e he; exact ha e (h.mem_iff.mp he)

theorem sumLines_cons (e : FSEntry) (rest : List FSEntry) :
    sumLines (e :: rest) = sumLines [e] + sumLines rest := by
  cases e <;> simp [sumLines]

theorem sumLines_eq_sum (l : List FSEntry) :
    sumLines l = (l.map fun e => sumLines [e]).sum := by
  induction l with
  | nil => simp [sumLines]
  | cons e rest ih => rw [sumLines_cons, List.map_cons, List.sum_cons, ih]

theorem sumLines_perm {l1 l2 : List FSEntry} (h : List.Perm l1 l2) :
    sumLines l1 = sumLines l2 := by
  rw [sumLines_eq_sum, sumLines_eq_sum]
  exact (h.map fun e => sumLines [e]).sum_eq

theorem sumBytes_cons (bt : Bool) (e : FSEntry) (rest : List FSEntry) :
    sumBytes bt (e :: rest) = sumBytes bt [e] + sumBytes bt rest := by
  cases e <;> simp [sumBytes]

theorem sumBytes_eq_sum (bt : Bool) (l : List FSEntry) :
    sumBytes bt l = (l.map fun e => sumBytes bt [e]).sum := by
  induction l with
  | nil => simp [sumBytes]
  | cons e rest ih => rw [sumBytes_cons, List.map_cons, List.sum_cons, ih]

theorem sumBytes_perm (bt : Bool) {l1 l2 : List FSEntry}
    (h : List.Perm l1 l2) : sumBytes bt l1 = sumBytes bt l2 := by
  rw [sumBytes_eq_sum, sumBytes_eq_sum]
  exact (h.map fun e => sumBytes bt [e]).sum_eq

theorem sumBytes_false (l : List FSEntry) : sumBytes false l = 0 := by
  induction l using sumBytes.induct false with
  | case1 => simp [sumBytes]
  | case2 _ bs rest ih => simpa [sumBytes, fileBytes] using ih
  | case3 _ rest ih => simpa [sumBytes] using ih
  | case4 _ rest ih => simpa [sumBytes] using ih
  | case5 _ es rest ih1 ih2 => simp [sumBytes, ih1, ih2]

/-- On a fully readable entry list the aggregator loop returns exactly the
reference sums. -/
theorem linecountEntries_good (bt ig : Bool) :
    ∀ l : List FSEntry, goodList l = true →
      linecountEntries bt ig l = some (sumLines l, sumBytes bt l) := by
  intro l
  induction l using linecountEntries.induct bt ig with
  | case1 => intro _; simp [linecountEntries, sumLines, sumBytes]
  | case2 _ bs rest ih =>
    intro hg
    rw [goodList] at hg
    rw [linecountEntries, ih hg]
    simp [sumLines, sumBytes]
  | case3 _ rest => intro hg; rw [goodList] at hg; exact absurd hg (by simp)
  | case4 n es rest hnone ih =>
    intro hg
    rw [goodList, Bool.and_eq_true] at hg
    rw [ih hg.1] at hnone
    exact absurd hnone (by simp)
  | case5 n es rest q hsome ihes ihrest =>
    intro hg
    rw [goodList, Bool.and_eq_true] at hg
    rw [linecountEntries, ihes hg.1, ihrest hg.2]
    simp [sumLines, sumBytes]
  | case6 _ rest ih => intro hg; rw [goodList] at hg; exact absurd hg (by simp)
/-- A tame entry list for the renderer: every node readable, every file
name valid UTF-8, within the render limit and not `.gitignore`, and no
directory named `.gitignore` — sufficient for `linecount_verbose` to run
every print site without panicking and every `.gitignore` fetch without
failing. -/
def goodRender : List FSEntry → Bool
  | [] => true
  | .file nm _ :: rest =>
    isValidUtf8 nm && decide (nm.length ≤ FILENAME_RENDER_LIMIT) &&
      !(nm == gitignoreName) && goodRender rest
  | .badFile _ :: _ => false
  | .badDir _ :: _ => false
  | .dir nm es :: rest =>
    !(nm == gitignoreName) && goodRender es && goodRender rest

theorem goodRender_cons (e : FSEntry) (rest : List FSEntry) :
    goodRender (e :: rest) = (goodRender [e] && goodRender rest) := by
  cases e <;> simp [goodRender, Bool.and_assoc]

theorem goodRender_eq_all (l : List FSEntry) :
    goodRender l = l.all fun e => goodRender [e] := by
  induction l with
  | nil => simp [goodRender]
  | cons e rest ih => rw [goodRender_cons, List.all_cons, ih]

theorem goodRender_perm {l1 l2 : List FSEntry} (h : List.Perm l1 l2) :
    goodRender l1 = goodRender l2 := by
  rw [goodRender_eq_all, goodRender_eq_all]
  apply Bool.eq_iff_iff.mpr
  simp only [List.all_eq_true]
  constructor
  · intro ha e he; exact ha e (h.mem_iff.mpr he)
  · intro ha e he; exact ha e (h.mem_iff.mp he)

theorem goodRender_name_ne (e : FSEntry) (h : goodRender [e] = true) :
    (e.name == gitignoreName) = false := by
  cases e with
  | file nm bs =>
    simp [goodRender] at h
    simp [FSEntry.name]
    exact h.2
  | badFile nm => simp [goodRender] at h
  | dir nm es =>
    simp [goodRender] at h
    simp [FSEntry.name]
    exact h.1
  | badDir nm => simp [goodRender] at h

theorem goodRender_goodList : ∀ l : List FSEntry,
    goodRender l = true → goodList l = true := by
  intro l
  induction l using goodRender.induct with
  | case1 => intro _; rw [goodList]
  | case2 nm bs rest ih =>
    intro h
    simp only [goodRender, Bool.and_eq_true] at h
    rw [goodList]
    exact ih h.2
  | case3 _ rest => intro h; simp [goodRender] at h
  | case4 _ rest => intro h; simp [goodRender] at h
  | case5 nm es rest ihes ihrest =>
    intro h
    simp only [goodRender, Bool.and_eq_true] at h
    rw [goodList, Bool.and_eq_true]
    exact ⟨ihes h.1.2, ihrest h.2⟩

/-- On a tame entry list no entry is named `.gitignore`, so the fetch
finds nothing and returns the empty pattern list. -/
theorem fetch_gitignore_of_goodRender {es : List FSEntry}
    (h : goodRender es = true) : fetch_gitignore es = some [] := by
  have hnone : (es.find? fun e => e.name == gitignoreName) = Option.none := by
    rw [List.find?_eq_none]
    intro e he
    rw [goodRender_eq_all, List.all_eq_true] at h
    have h1 := goodRender_name_ne e (h e he)
    simp [h1]
  rw [fetch_gitignore, hnone]

theorem is_visible_of_valid {nm : List Nat} (h : isValidUtf8 nm = true) :
    is_visible nm = some (!(nm.head? = some 46 : Bool)) := by
  rw [is_visible, if_pos h]

theorem displayName_of_short {nm : List Nat}
    (h : nm.length ≤ FILENAME_RENDER_LIMIT) : displayName nm = some nm := by
  rw [displayName, if_neg (by omega)]

/-- On a tame entry list the renderer loop returns exactly the reference
sums, whatever pattern list is in force: tame names never reach a panic
site, and every subdirectory's fetch yields the empty pattern list. -/
theorem lcvEntries_goodRender (bt : Bool) :
    ∀ (ig : List (List Nat)) (l : List FSEntry), goodRender l = true →
      lcvEntries bt ig l = .ok (sumLines l) (sumBytes bt l) := by
  intro ig l
  induction ig, l using lcvEntries.induct bt with
  | case1 ig => intro _; simp [lcvEntries, sumLines, sumBytes]
  | case2 ig nm bs rest hvis =>
    intro hg
    simp only [goodRender, Bool.and_eq_true] at hg
    rw [is_visible_of_valid hg.1.1.1] at hvis
    exact absurd hvis (by simp)
  | case3 ig nm bs rest ex hvis hcond =>
    intro hg
    simp only [goodRender, Bool.and_eq_true] at hg
    rw [displayName_of_short (by simpa using hg.1.1.2)] at hcond
    simp at hcond
  | case4 ig nm bs rest ex hvis hcond l b hok ih =>
    intro hg
    simp only [goodRender, Bool.and_eq_true] at hg
    rw [lcvEntries]
    simp only [hvis, if_neg hcond, ih hg.2]
    rw [sumLines, sumBytes]
  | case5 ig nm bs rest ex hvis hcond hno ih =>
    intro hg
    simp only [goodRender, Bool.and_eq_true] at hg
    exact absurd (ih hg.2) (by intro h; exact hno _ _ h)
  | case6 ig _ rest => intro hg; simp [goodRender] at hg
  | case7 ig _ rest => intro hg; simp [goodRender] at hg
  | case8 ig n es rest hfetch ih =>
    intro hg
    simp only [goodRender, Bool.and_eq_true] at hg
    rw [fetch_gitignore_of_goodRender hg.1.2] at hfetch
    exact absurd hfetch (by simp)
  | case9 ig n es rest ig2 hfetch hpanic ihro =>
    intro hg
    simp only [goodRender, Bool.and_eq_true] at hg
    have hgro : goodRender (renderOrder es) = true := by
      rw [goodRender_perm (renderOrder_perm es)]; exact hg.1.2
    rw [ihro hgro] at hpanic
    exact absurd hpanic (by simp)
  | case10 ig n es rest ig2 hfetch herr ihro ihrest =>
    intro hg
    simp only [goodRender, Bool.and_eq_true] at hg
    have hgro : goodRender (renderOrder es) = true := by
      rw [goodRender_perm (renderOrder_perm es)]; exact hg.1.2
    rw [ihro hgro] at herr
    exact absurd herr (by simp)
  | case11 ig n es rest ig2 hfetch l b hok1 l2 b2 hok2 ihro ihrest =>
    intro hg
    simp only [goodRender, Bool.and_eq_true] at hg
    have hgro : goodRender (renderOrder es) = true := by
      rw [goodRender_perm (renderOrder_perm es)]; exact hg.1.2
    rw [lcvEntries]
    simp only [hfetch, ihro hgro, ihrest hg.2]
    rw [sumLines, sumBytes,
      sumLines_perm (renderOrder_perm es), sumBytes_perm bt (renderOrder_perm es)]
    cases bt with
    | true => simp
    | false => simp [sumBytes_false]
  | case12 ig n es rest ig2 hfetch l b hok1 hno ihro ihrest =>
    intro hg
    simp only [goodRender, Bool.and_eq_true] at hg
    exact absurd (ihrest hg.2) (by intro h; exact hno _ _ h)

/-- The unused `ignore_toggle` argument never influences the aggregator. -/
theorem linecountEntries_ig (bt ig1 ig2 : Bool) :
    ∀ l : List FSEntry,
      linecountEntries bt ig1 l = linecountEntries bt ig2 l := by
  intro l
  induction l using linecountEntries.induct bt ig1 with
  | case1 => simp [linecountEntries]
  | case2 _ bs rest ih => rw [linecountEntries, linecountEntries, ih]
  | case3 _ rest => rw [linecountEntries, linecountEntries]
  | case4 n es rest hnone ihes ihrest =>
    rw [linecountEntries, linecountEntries, ihes, ihrest]
  | case5 n es rest q hsome ihes ihrest =>
    rw [linecountEntries, linecountEntries, ihes, ihrest]
  | case6 _ rest ih => rw [linecountEntries, linecountEntries, ih]

/-- An unlistable subdirectory is skipped by the aggregator: dropping it
from the listing does not change the result. -/
theorem linecountEntries_badDir (bt ig : Bool) (m : List Nat)
    (es2 : List FSEntry) :
    ∀ es1 : List FSEntry,
      linecountEntries bt ig (es1 ++ .badDir m :: es2) =
        linecountEntries bt ig (es1 ++ es2) := by
  intro es1
  induction es1 with
  | nil => rw [List.nil_append, List.nil_append, linecountEntries]
  | cons e t ih =>
    cases e with
    | file nm bs => rw [List.cons_append, List.cons_append,
        linecountEntries, linecountEntries, ih]
    | badFile nm => rw [List.cons_append, List.cons_append,
        linecountEntries, linecountEntries]
    | dir nm es => rw [List.cons_append, List.cons_append,
        linecountEntries, linecountEntries, ih]
    | badDir nm => rw [List.cons_append, List.cons_append,
        linecountEntries, linecountEntries, ih]

/-- An unreadable file is fatal for the whole call that lists it. -/
theorem linecountEntries_badFile (bt ig : Bool) (m : List Nat)
    (es2 : List FSEntry) :
    ∀ es1 : List FSEntry,
      linecountEntries bt ig (es1 ++ .badFile m :: es2) = none := by
  intro es1
  induction es1 with
  | nil => rw [List.nil_append, linecountEntries]
  | cons e t ih =>
    cases e with
    | file nm bs => rw [List.cons_append, linecountEntries, ih]; rfl
    | badFile nm => rw [List.cons_append, linecountEntries]
    | dir nm es =>
      rw [List.cons_append, linecountEntries, ih]
      cases linecountEntries bt ig es <;> simp
    | badDir nm => rw [List.cons_append, linecountEntries, ih]

/-- Effect of one extra measured file on a `RunResult`: its measurement is
added on success, failures pass through. -/
def addFile (l b : Nat) : RunResult → RunResult
  | .ok l2 b2 => .ok (l + l2) (b + b2)
  | r => r

/-- Inserting one readable file whose print site cannot panic — valid
UTF-8 name and, when the name would be printed, a truncation that
succeeds — anywhere in the iterated entry list adds exactly its
measurement to the renderer loop's outcome. -/
theorem lcvEntries_insert_file (bt : Bool) (ig : List (List Nat))
    (nm bs : List Nat) (hv : isValidUtf8 nm = true)
    (hd : is_visible nm = some true → (displayName nm).isSome = true)
    (l2 : List FSEntry) :
    ∀ l1 : List FSEntry,
      lcvEntries bt ig (l1 ++ .file nm bs :: l2) =
        addFile (lines_count bs) (fileBytes bt bs)
          (lcvEntries bt ig (l1 ++ l2)) := by
  intro l1
  induction l1 with
  | nil =>
    rw [List.nil_append, List.nil_append]
    have hvis := is_visible_of_valid hv
    have hcond : ((!(nm.head? = some 46 : Bool)) && !(ig.contains nm) &&
        !(displayName nm).isSome) = false := by
      by_cases h46 : nm.head? = some 46
      · simp [h46]
      · have hvt : is_visible nm = some true := by
          rw [hvis]; simp [h46]
        simp [hd hvt]
    rw [lcvEntries, hvis]
    simp only [hcond, Bool.false_eq_true, if_false]
    cases lcvEntries bt ig l2 <;> simp [addFile]
  | cons e t ih =>
    cases e with
    | file nm2 bs2 =>
      rw [List.cons_append, List.cons_append, lcvEntries, lcvEntries]
      cases hvis2 : is_visible nm2 with
      | none => rfl
      | some vis =>
        by_cases hc : (vis && !(ig.contains nm2) &&
            !(displayName nm2).isSome) = true
        · simp only [if_pos hc]; rfl
        · simp only [if_neg hc]
          rw [ih]
          cases lcvEntries bt ig (t ++ l2) <;>
            simp [addFile, Nat.add_left_comm]
    | badFile nm2 =>
      rw [List.cons_append, List.cons_append, lcvEntries, lcvEntries]
      rfl
    | badDir nm2 =>
      rw [List.cons_append, List.cons_append, lcvEntries, lcvEntries]
      rfl
    | dir nm2 es =>
      rw [List.cons_append, List.cons_append, lcvEntries, lcvEntries]
      cases hf : fetch_gitignore es with
      | none => exact ih
      | some ig2 =>
        simp only [hf, ih]
        cases lcvEntries bt ig2 (renderOrder es) with
        | panic => rfl
        | err => rfl
        | ok l b =>
          cases lcvEntries bt ig (t ++ l2) <;>
            simp [addFile, Nat.add_left_comm]

/-- Inserting such a file at the head of a directory's raw listing adds
exactly its measurement to the renderer loop over the sorted listing. -/
theorem lcv_insert_file (bt : Bool) (ig : List (List Nat))
    (nm bs : List Nat) (es : List FSEntry) (hv : isValidUtf8 nm = true)
    (hd : is_visible nm = some true → (displayName nm).isSome = true) :
    lcvEntries bt ig (renderOrder (.file nm bs :: es)) =
      addFile (lines_count bs) (fileBytes bt bs)
        (lcvEntries bt ig (renderOrder es)) := by
  have h1 : (FSEntry.file nm bs :: es).filter isFileE =
      .file nm bs :: es.filter isFileE := by
    simp [List.filter_cons, isFileE]
  have h2 : (FSEntry.file nm bs :: es).filter (fun e => !isFileE e) =
      es.filter (fun e => !isFileE e) := by
    simp [List.filter_cons, isFileE]
  rw [renderOrder, h1, h2, List.insertionSort,
    List.orderedInsert_eq_take_drop, List.append_assoc, List.cons_append,
    lcvEntries_insert_file bt ig nm bs hv hd, ← List.append_assoc,
    List.takeWhile_append_dropWhile, ← renderOrder]

/-- Top-level version: one extra readable, printable file that is not
named `.gitignore` adds exactly its measurement to the rendered
totals. -/
theorem linecount_verbose_insert_file (bt : Bool) (n nm bs : List Nat)
    (es : List FSEntry) (hv : isValidUtf8 nm = true)
    (hd : is_visible nm = some true → (displayName nm).isSome = true)
    (hg : nm ≠ gitignoreName) :
    linecount_verbose bt (.dir n (.file nm bs :: es)) =
      addFile (lines_count bs) (fileBytes bt bs)
        (linecount_verbose bt (.dir n es)) := by
  simp only [linecount_verbose]
  have hfind : ((FSEntry.file nm bs :: es).find? fun e =>
      e.name == gitignoreName) = es.find? fun e => e.name == gitignoreName :=
    List.find?_cons_of_neg _ (by simp [FSEntry.name, hg])
  have hfe : fetch_gitignore (.file nm bs :: es) = fetch_gitignore es := by
    rw [fetch_gitignore, fetch_gitignore, hfind]
  rw [hfe]
  cases hf : fetch_gitignore es with
  | none => rfl
  | some ig => exact lcv_insert_file bt ig nm bs es hv hd

/-- Truncation keeps the first byte of a name when it succeeds. -/
theorem displayName_head {nm dn : List Nat} (h : displayName nm = some dn) :
    dn.head? = nm.head? := by
  rw [displayName] at h
  split at h
  · rename_i hlong
    split at h
    · exact absurd h (by simp)
    · rw [Option.some_inj] at h
      subst h
      cases nm with
      | nil => simp [FILENAME_RENDER_LIMIT] at hlong
      | cons a t => simp [FILENAME_RENDER_LIMIT, List.take_cons]
  · rw [Option.some_inj] at h
    subst h
    rfl

/-- Every name the renderer prints at one level comes from a readable file
of that directory that is visible, not matched by the pattern list, and
truncated without panicking. -/
theorem filePrints_sound (ig : List (List Nat)) (es : List FSEntry)
    (s : List Nat) (hs : s ∈ filePrints ig es) :
    ∃ nm bs, FSEntry.file nm bs ∈ es ∧ displayName nm = some s ∧
      is_visible nm = some true ∧ ig.contains nm = false := by
  rw [filePrints, List.mem_filterMap] at hs
  obtain ⟨e, he, hcond⟩ := hs
  rw [List.mem_insertionSort, List.mem_filter] at he
  obtain ⟨hees, hf⟩ := he
  cases e with
  | file nm bs =>
    rw [FSEntry.name] at hcond
    split at hcond
    · rename_i hc
      exact ⟨nm, bs, hees, hcond, hc.1, hc.2⟩
    · exact absurd hcond (by simp)
  | badFile nm => simp [isFileE] at hf
  | dir nm es2 => simp [isFileE] at hf
  | badDir nm => simp [isFileE] at hf

/-! ### Arithmetic of `splitNl` -/

theorem splitNl_length (bs : List Nat) :
    (splitNl bs).length = bs.count 10 + 1 := by
  induction bs with
  | nil => simp [splitNl]
  | cons b rest ih =>
    rw [splitNl]
    split
    · rename_i hb
      subst hb
      simp [List.count_cons, ih]
    · rename_i hb
      cases hsp : splitNl rest with
      | nil => exact absurd hsp (splitNl_ne_nil rest)
      | cons g gs =>
        have : (g :: gs).length = rest.count 10 + 1 := by rw [← hsp, ih]
        simp only [List.length_cons] at this ⊢
        rw [List.count_cons]
        simp [hb, this]

theorem splitNl_getLast (bs : List Nat) :
    (splitNl bs).getLast? = some [] ↔ bs = [] ∨ bs.getLast? = some 10 := by
  induction bs with
  | nil => simp [splitNl]
  | cons b rest ih =>
    rw [splitNl]
    split
    · rename_i hb
      subst hb
      cases rest with
      | nil => simp [splitNl]
      | cons r rs =>
        cases hsp : splitNl (r :: rs) with
        | nil => exact absurd hsp (splitNl_ne_nil _)
        | cons g gs =>
          rw [List.getLast?_cons_cons, ← hsp, ih]
          simp [List.getLast?_cons_cons]
    · rename_i hb
      cases hsp : splitNl rest with
      | nil => exact absurd hsp (splitNl_ne_nil rest)
      | cons g gs =>
        cases gs with
        | nil =>
          have hlen : (splitNl rest).length = rest.count 10 + 1 :=
            splitNl_length rest
          rw [hsp] at hlen
          simp only [List.length_cons, List.length_nil] at hlen
          have hcount : rest.count 10 = 0 := by omega
          have hnotmem : 10 ∉ rest := List.count_eq_zero.mp hcount
          constructor
          · intro h
            simp at h
          · intro h
            rcases h with h | h
            · exact absurd h (by simp)
            · cases rest with
              | nil => simp at h; omega
              | cons r rs =>
                rw [List.getLast?_cons_cons] at h
                exact absurd (List.mem_of_getLast?_eq_some h) hnotmem
        | cons g2 gs2 =>
          have hlast : ((b :: g) :: g2 :: gs2).getLast? =
              (splitNl rest).getLast? := by
            rw [hsp, List.getLast?_cons_cons, List.getLast?_cons_cons]
          rw [hlast, ih]
          cases rest with
          | nil =>
            rw [splitNl] at hsp
            simp at hsp
          | cons r rs =>
            simp [List.getLast?_cons_cons]

/-- Closed form of the line counter: one line per newline byte, plus one
for a final unterminated segment. -/
theorem lines_count_eq (bs : List Nat) :
    lines_count bs =
      bs.count 10 +
        (if bs = [] ∨ bs.getLast? = some 10 then 0 else 1) := by
  rw [lines_count]
  simp only [linesOf]
  split
  · rename_i h
    rw [List.length_dropLast, splitNl_length]
    have hc := (splitNl_getLast bs).mp h
    simp [hc]
  · rename_i h
    rw [splitNl_length]
    have hc : ¬(bs = [] ∨ bs.getLast? = some 10) := fun hx =>
      h ((splitNl_getLast bs).mpr hx)
    simp [hc]

/-! ### Claim theorems -/

/-- C1: for every directory tree in which no subtree is skipped (no entry
is unreadable), `linecount` returns exactly the sum of the line counts
(and byte measurements) of every regular file reachable from the root;
the reference sums are themselves defined directory-wise as the sum of
the children's measurements, each child's total computed in full before
being merged. -/
theorem claim_C1_linecount_sums (bt ig : Bool) (n : List Nat)
    (es : List FSEntry) (h : goodList es = true) :
    linecount bt ig (.dir n es) = some (sumLines es, sumBytes bt es) := by
  simp only [linecount]
  exact linecountEntries_good bt ig es h

/-- Witness for C1: the worked example of the specification — `x.rs` with
three lines and six bytes next to a subdirectory holding `y.md` with one
line and three bytes — aggregates to four lines and nine bytes. -/
theorem claim_C1_witness :
    goodList [FSEntry.file [120, 46, 114, 115] [97, 10, 98, 10, 99, 10],
      FSEntry.dir [115, 117, 98]
        [FSEntry.file [121, 46, 109, 100] [104, 105, 10]]] = true ∧
    linecount true true (.dir [68]
      [FSEntry.file [120, 46, 114, 115] [97, 10, 98, 10, 99, 10],
        FSEntry.dir [115, 117, 98]
          [FSEntry.file [121, 46, 109, 100] [104, 105, 10]]]) =
      some (4, 9) := by
  have hg : goodList [FSEntry.file [120, 46, 114, 115] [97, 10, 98, 10, 99, 10],
      FSEntry.dir [115, 117, 98]
        [FSEntry.file [121, 46, 109, 100] [104, 105, 10]]] = true := by
    simp [goodList]
  refine ⟨hg, ?_⟩
  rw [claim_C1_linecount_sums true true [68] _ hg]
  simp [sumLines, sumBytes, fileBytes, lines_count, linesOf, splitNl,
    from_utf8_lossy_len]

/-- C2 counterexample: a failing read of a file directly under the root is
not caught and skipped — it aborts the whole aggregation, so `linecount`
returns `Err` (`none`) instead of the successful measurement of the
remaining readable child (which would be `some (1, 0)`). -/
theorem claim_C2_counterexample :
    linecount false true
      (.dir [114] [.file [97] [97], .badFile [98]]) = none := by
  simp [linecount, linecountEntries]

/-- C3 counterexample: a one-byte file whose single byte is invalid UTF-8
(0xFF) is reported as three bytes — the length of the lossily decoded
text (one U+FFFD) — not its on-disk size of one byte. -/
theorem claim_C3_counterexample :
    linecount true true (.dir [100] [.file [102] [255]]) = some (1, 3) ∧
    ([255] : List Nat).length = 1 := by
  constructor
  · simp [linecount, linecountEntries, lines_count, linesOf, splitNl,
      fileBytes, from_utf8_lossy_len]
  · rfl

/-- C8: the line count of a file is its number of newline bytes plus one
final unterminated segment when the content does not end in a newline:
`"a\nb"` has two lines, and an empty file yields zero lines and zero
bytes. -/
theorem claim_C8_line_counting :
    (∀ bs : List Nat, lines_count bs =
        bs.count 10 + (if bs = [] ∨ bs.getLast? = some 10 then 0 else 1)) ∧
    lines_count [97, 10, 98] = 2 ∧
    (∀ bt ig : Bool, ∀ n fn : List Nat,
        linecount bt ig (.dir n [.file fn []]) = some (0, 0)) := by
  refine ⟨lines_count_eq, by rfl, ?_⟩
  intro bt ig n fn
  simp [linecount, linecountEntries, lines_count, linesOf, splitNl,
    fileBytes, from_utf8_lossy_len]

/-- C4 counterexample: `classify` has a failure path — when the extension
is in none of the code, media and executable tables the classifier
unwraps the executable-bit metadata lookup, and a failed lookup (`none`)
panics instead of producing a category. -/
theorem claim_C4_counterexample :
    content_type "txt" "notes.txt" none = none := by decide

/-- C4 amended: `classify` is deterministic — it is a pure function of
(extension, filename, permission word) — but it is not total: it produces
a category exactly when the executable-bit metadata is available or the
extension is in the code, media or executable table (otherwise the
`unwrap` of `is_unix_executable` panics). -/
theorem claim_C4_totality (ext fn : String) (mode : Option Nat) :
    (content_type ext fn mode).isSome =
      (mode.isSome || code_extensions.contains ext ||
        media_extensions.contains ext ||
        executable_extensions.contains ext) := by
  cases mode with
  | none =>
    simp only [content_type, is_unix_executable, Option.map_none']
    split_ifs <;> simp_all
  | some m =>
    simp only [content_type, is_unix_executable, Option.map_some']
    split_ifs <;> simp_all

/-- C5: when the extension is in neither the code nor the media table and
the permission metadata is readable, the classifier answers `EXECUTABLE`
exactly when the extension is in the executable table, or the any-execute
permission bit (`mode & 0o111`) is set and the extension is not in the
text table.  The rule sits before the text, LICENSE, Makefile and Normal
rules, so those never shadow it. -/
theorem claim_C5_executable_rule (ext fn : String) (m : Nat)
    (hc : code_extensions.contains ext = false)
    (hm : media_extensions.contains ext = false) :
    content_type ext fn (some m) = some ContentType.EXECUTABLE ↔
      (executable_extensions.contains ext = true ∨
        (Nat.land m 0o111 ≠ 0 ∧ text_extensions.contains ext = false)) := by
  simp only [content_type, is_unix_executable, Option.map_some']
  rw [if_neg (by simpa using hc), if_neg (by simpa using hm)]
  by_cases he : ext ∈ executable_extensions
  · rw [if_pos (by simpa using he)]
    simp [he]
  · rw [if_neg (by simpa using he)]
    by_cases hx : Nat.land m 0o111 ≠ 0
    · by_cases ht : ext ∈ text_extensions
      · rw [if_neg (by simp [ht]), if_pos (by simpa using ht)]
        simp [he, ht]
      · rw [if_pos (by simp [hx, ht])]
        simp [he, hx, ht]
    · have hx0 : Nat.land m 0o111 = 0 := not_not.mp hx
      by_cases ht : ext ∈ text_extensions
      · rw [if_neg (by simp [hx0]), if_pos (by simpa using ht)]
        simp [he, hx0]
      · rw [if_neg (by simp [hx0]), if_neg (by simpa using ht)]
        by_cases h5 : fn = "LICENSE"
        · rw [if_pos h5]
          simp [he, hx0]
        · by_cases h6 : fn = "Makefile"
          · rw [if_neg h5, if_pos h6]
            simp [he, hx0]
          · rw [if_neg h5, if_neg h6]
            simp [he, hx0]

/-- Witness for C5: an extensionless entry (`extension()` defaults to the
empty string) with permission word 0o111 is classified `EXECUTABLE`
through the permission-bit arm of the rule. -/
theorem claim_C5_witness :
    content_type "" "run" (some 73) = some ContentType.EXECUTABLE :=
  (claim_C5_executable_rule "" "run" 73 (by decide) (by decide)).mpr
    (Or.inr ⟨by decide, by decide⟩)

/-- C6: at every level the renderer iterates (and prints) the directory's
entries as the file group followed by the directory group, each group
sorted ascending by name in the byte-wise order of `Vec<PathBuf>::sort`;
`renderOrder` is exactly the iteration order used by `lcvEntries` and
`filePrints`. -/
theorem claim_C6_files_before_dirs_sorted (es : List FSEntry) :
    ∃ F D, renderOrder es = F ++ D ∧
      (∀ e ∈ F, isFileE e = true) ∧
      (∀ e ∈ D, isFileE e = false) ∧
      List.Sorted nameLe F ∧ List.Sorted nameLe D := by
  refine ⟨(es.filter isFileE).insertionSort nameLe,
    (es.filter fun e => !isFileE e).insertionSort nameLe,
    rfl, ?_, ?_, ?_, ?_⟩
  · intro e he
    rw [List.mem_insertionSort] at he
    exact (List.mem_filter.mp he).2
  · intro e he
    rw [List.mem_insertionSort] at he
    have h2 := (List.mem_filter.mp he).2
    simpa using h2
  · exact List.sorted_insertionSort nameLe _
  · exact List.sorted_insertionSort nameLe _

/-- C2 amended: only the failure to LIST a descendant subdirectory is
caught at the point of recursion and excluded from the totals (with a
logged warning in `linecount`); a failing file (or metadata) read instead
aborts the listing of its containing directory, whose whole subtree is
then skipped one level up.  The renderer does not share these semantics:
an unlistable subdirectory not named `.gitignore` panics the process, a
subdirectory whose recursive call fails is skipped silently, and an
unlistable (or any) directory named `.gitignore` makes its parent's
`fetch_gitignore` fail, turning the parent's whole call into `Err`. -/
theorem claim_C2_skip_semantics :
    (∀ bt ig : Bool, ∀ n m : List Nat, ∀ es1 es2 : List FSEntry,
        linecount bt ig (.dir n (es1 ++ .badDir m :: es2)) =
          linecount bt ig (.dir n (es1 ++ es2))) ∧
    (∀ bt ig : Bool, ∀ n m : List Nat, ∀ es1 es2 : List FSEntry,
        linecount bt ig (.dir n (es1 ++ .badFile m :: es2)) = none) ∧
    (∀ bt : Bool, ∀ n m : List Nat, m ≠ gitignoreName →
        linecount_verbose bt (.dir n [.badDir m]) = .panic) ∧
    (∀ bt : Bool, ∀ n m : List Nat,
        linecount_verbose bt (.dir n [.badFile m]) = .err) ∧
    (∀ bt : Bool, ∀ n n2 m : List Nat, n2 ≠ gitignoreName →
        linecount_verbose bt (.dir n [.dir n2 [.badFile m]]) = .ok 0 0) ∧
    (∀ bt : Bool, ∀ n : List Nat,
        linecount_verbose bt (.dir n [.badDir gitignoreName]) = .err) := by
  refine ⟨?_, ?_, ?_, ?_, ?_, ?_⟩
  · intro bt ig n m es1 es2
    simp only [linecount]
    exact linecountEntries_badDir bt ig m es2 es1
  · intro bt ig n m es1 es2
    simp only [linecount]
    exact linecountEntries_badFile bt ig m es2 es1
  · intro bt n m hm
    have hm2 : (m == gitignoreName) = false := beq_eq_false_iff_ne.mpr hm
    simp [linecount_verbose, fetch_gitignore, List.find?, FSEntry.name, hm2,
      renderOrder, isFileE, lcvEntries]
  · intro bt n m
    by_cases hm : m = gitignoreName
    · subst hm
      simp [linecount_verbose, fetch_gitignore, List.find?, FSEntry.name,
        renderOrder, isFileE, lcvEntries]
    · have hm2 : (m == gitignoreName) = false := beq_eq_false_iff_ne.mpr hm
      simp [linecount_verbose, fetch_gitignore, List.find?, FSEntry.name, hm2,
        renderOrder, isFileE, lcvEntries]
  · intro bt n n2 m hn2
    have hn22 : (n2 == gitignoreName) = false := beq_eq_false_iff_ne.mpr hn2
    by_cases hm : m = gitignoreName
    · subst hm
      simp [linecount_verbose, fetch_gitignore, List.find?, FSEntry.name,
        hn22, renderOrder, isFileE, lcvEntries]
    · have hm2 : (m == gitignoreName) = false := beq_eq_false_iff_ne.mpr hm
      simp [linecount_verbose, fetch_gitignore, List.find?, FSEntry.name,
        hn22, hm2, renderOrder, isFileE, lcvEntries]
  · intro bt n
    simp [linecount_verbose, fetch_gitignore, List.find?, FSEntry.name]

/-- Witness for C2: an unlistable subdirectory `s` alone under the root
panics the renderer, while a failing file read inside a readable
subdirectory is skipped silently with its whole subdirectory. -/
theorem claim_C2_witness :
    linecount_verbose false (.dir [110] [.badDir [115]]) =
      RunResult.panic ∧
    linecount_verbose false (.dir [110] [.dir [115] [.badFile [109]]]) =
      RunResult.ok 0 0 := by
  constructor
  · exact claim_C2_skip_semantics.2.2.1 false [110] [115] (by decide)
  · exact claim_C2_skip_semantics.2.2.2.2.1 false [110] [115] [109]
      (by decide)

/-- C3 amended: for every file the measured byte count equals the byte
length of the lossily decoded reconstruction of its contents (which can
differ from the on-disk size when invalid sequences are replaced), and
this decoded-length rule is held consistently by the silent aggregator
and — for files whose print site completes, that is whose valid, render-
limit-sized names are not `.gitignore` — by the tree renderer. -/
theorem claim_C3_decoded_bytes :
    (∀ bt ig : Bool, ∀ n fn bs : List Nat,
        linecount bt ig (.dir n [.file fn bs]) =
          some (lines_count bs, fileBytes bt bs)) ∧
    (∀ bt : Bool, ∀ n fn bs : List Nat,
        isValidUtf8 fn = true → fn.length ≤ FILENAME_RENDER_LIMIT →
          fn ≠ gitignoreName →
          linecount_verbose bt (.dir n [.file fn bs]) =
            .ok (lines_count bs) (fileBytes bt bs)) := by
  constructor
  · intro bt ig n fn bs
    simp [linecount, linecountEntries]
  · intro bt n fn bs hv hlen hfn
    simp only [linecount_verbose]
    have hfn2 : (fn == gitignoreName) = false := beq_eq_false_iff_ne.mpr hfn
    have hfe : fetch_gitignore [FSEntry.file fn bs] = some [] := by
      simp [fetch_gitignore, List.find?, FSEntry.name, hfn2]
    have hvis := is_visible_of_valid hv
    have hdn := displayName_of_short hlen
    simp [hfe, renderOrder, isFileE, lcvEntries, hvis, hdn]

/-- Witness for C3: a one-byte file of invalid UTF-8 content under a tame
name is reported by the renderer as one line and three bytes. -/
theorem claim_C3_witness :
    linecount_verbose true (.dir [100] [.file [102] [255]]) =
      RunResult.ok 1 3 := by
  have h := claim_C3_decoded_bytes.2 true [100] [102] [255] (by decide)
    (by decide) (by decide)
  rw [h]
  simp [lines_count, linesOf, splitNl, fileBytes, from_utf8_lossy_len]

/-- C7 counterexample: a readable file named by the single invalid byte
0xFF — no read fails anywhere in this tree — is totalled by `linecount`,
but the renderer panics in `is_visible` before returning anything, so the
two traversals do not agree on every no-failed-read tree. -/
theorem claim_C7_counterexample :
    linecount true true (.dir [100] [.file [255] [97]]) = some (1, 1) ∧
    linecount_verbose true (.dir [100] [.file [255] [97]]) =
      RunResult.panic := by
  constructor
  · simp [linecount, linecountEntries, lines_count, linesOf, splitNl,
      fileBytes, from_utf8_lossy_len]
  · simp +decide [linecount_verbose, fetch_gitignore, List.find?,
      FSEntry.name, renderOrder, isFileE, lcvEntries, is_visible,
      isValidUtf8]

/-- C7 amended: over a tame tree — every entry readable, every file name
valid UTF-8 and within the render limit, and no entry named `.gitignore`
— the tree renderer returns the same measurement totals as the silent
aggregator, both equal to the reference sums.  Outside that tameness the
renderer can panic (non-UTF-8 name, or a long name split inside a
character at byte 60) or fail (a `.gitignore` that is a directory or has
non-UTF-8 content) on trees where `linecount` succeeds. -/
theorem claim_C7_verbose_matches_linecount (bt ig : Bool) (n : List Nat)
    (es : List FSEntry) (h : goodRender es = true) :
    ∃ l b, linecount bt ig (.dir n es) = some (l, b) ∧
      linecount_verbose bt (.dir n es) = .ok l b := by
  refine ⟨sumLines es, sumBytes bt es, ?_, ?_⟩
  · simp only [linecount]
    exact linecountEntries_good bt ig es (goodRender_goodList es h)
  · simp only [linecount_verbose]
    have hro : goodRender (renderOrder es) = true := by
      rw [goodRender_perm (renderOrder_perm es)]; exact h
    simp only [fetch_gitignore_of_goodRender h]
    rw [lcvEntries_goodRender bt [] (renderOrder es) hro,
      sumLines_perm (renderOrder_perm es),
      sumBytes_perm bt (renderOrder_perm es)]

/-- Witness for C7: on a concrete tame two-level tree both traversals
return four lines and nine bytes. -/
theorem claim_C7_witness :
    linecount true true (.dir [114]
      [FSEntry.file [98] [104, 10, 104, 105, 10],
        FSEntry.dir [97] [FSEntry.file [99] [10, 120, 121, 122]]]) =
      some (4, 9) ∧
    linecount_verbose true (.dir [114]
      [FSEntry.file [98] [104, 10, 104, 105, 10],
        FSEntry.dir [97] [FSEntry.file [99] [10, 120, 121, 122]]]) =
      RunResult.ok 4 9 := by
  obtain ⟨l, b, h1, h2⟩ :=
    claim_C7_verbose_matches_linecount true true [114]
      [FSEntry.file [98] [104, 10, 104, 105, 10],
        FSEntry.dir [97] [FSEntry.file [99] [10, 120, 121, 122]]]
      (by simp +decide [goodRender])
  have hval : linecount true true (.dir [114]
      [FSEntry.file [98] [104, 10, 104, 105, 10],
        FSEntry.dir [97] [FSEntry.file [99] [10, 120, 121, 122]]]) =
      some (4, 9) := by
    simp [linecount, linecountEntries, lines_count, linesOf, splitNl,
      fileBytes, from_utf8_lossy_len]
  have h3 := hval.symm.trans h1
  simp only [Option.some_inj, Prod.mk.injEq] at h3
  rw [← h3.1, ← h3.2] at h2
  exact ⟨hval, h2⟩

/-- C9 counterexample: a hidden file whose name `[46, 255]` is not valid
UTF-8 is totalled by `linecount`, but the renderer panics at the
`is_visible` unwrap after measuring it and never returns the totals — so
a hidden entry is not always "still included" in a returned
Measurement. -/
theorem claim_C9_counterexample :
    linecount true true (.dir [100] [.file [46, 255] [97]]) =
      some (1, 1) ∧
    linecount_verbose true (.dir [100] [.file [46, 255] [97]]) =
      RunResult.panic := by
  constructor
  · simp [linecount, linecountEntries, lines_count, linesOf, splitNl,
      fileBytes, from_utf8_lossy_len]
  · simp +decide [linecount_verbose, fetch_gitignore, List.find?,
      FSEntry.name, renderOrder, isFileE, lcvEntries, is_visible,
      isValidUtf8, isCont]

/-- C9 amended: a hidden file whose name is valid UTF-8 and not
`.gitignore` is counted in the rendered totals exactly like any other
readable file, and the renderer never prints a line for any hidden entry
(every printed name starts with a byte other than `.`); a hidden file
with a non-UTF-8 name instead panics the renderer, and one named
`.gitignore` changes the fetched pattern list. -/
theorem claim_C9_hidden_counted_not_printed :
    (∀ bt : Bool, ∀ n nm bs : List Nat, ∀ es : List FSEntry,
        nm.head? = some 46 → isValidUtf8 nm = true → nm ≠ gitignoreName →
          linecount_verbose bt (.dir n (.file nm bs :: es)) =
            addFile (lines_count bs) (fileBytes bt bs)
              (linecount_verbose bt (.dir n es))) ∧
    (∀ ig : List (List Nat), ∀ es : List FSEntry, ∀ s : List Nat,
        s ∈ filePrints ig es → s.head? ≠ some 46) := by
  constructor
  · intro bt n nm bs es h46 hv hgi
    refine linecount_verbose_insert_file bt n nm bs es hv ?_ hgi
    intro hvt
    rw [is_visible_of_valid hv, h46] at hvt
    simp at hvt
  · intro ig es s hs h46
    obtain ⟨nm, bs2, hmem, hdn, hvis, hig⟩ := filePrints_sound ig es s hs
    rw [displayName_head hdn] at h46
    rw [is_visible] at hvis
    split at hvis
    · rw [Option.some_inj] at hvis
      rw [h46] at hvis
      simp at hvis
    · exact absurd hvis (by simp)

/-- Witness for C9: the hidden file `.e` (one line, two bytes) is added to
its directory's totals yet its name is not among the printed file
names. -/
theorem claim_C9_witness :
    linecount_verbose true (.dir [100] [.file [46, 101] [97, 10]]) =
      RunResult.ok 1 2 ∧
    [46, 101] ∉ filePrints [] [.file [46, 101] [97, 10]] := by
  constructor
  · have h := claim_C9_hidden_counted_not_printed.1 true [100] [46, 101]
      [97, 10] [] (by rfl) (by decide) (by decide)
    rw [h]
    simp +decide [linecount_verbose, fetch_gitignore, List.find?,
      FSEntry.name, renderOrder, lcvEntries, addFile, lines_count, linesOf,
      splitNl, fileBytes, from_utf8_lossy_len]
  · intro hmem
    exact claim_C9_hidden_counted_not_printed.2 [] _ _ hmem (by rfl)

/-- C10 counterexample: the renderer's outcome is not independent of the
contents of a `.gitignore` file — two trees identical but for those
contents return `Err` (non-UTF-8 content fails `read_to_string` at the
fetch) versus a successful measurement. -/
theorem claim_C10_counterexample :
    linecount_verbose true (.dir [100] [.file gitignoreName [255]]) =
      RunResult.err ∧
    linecount_verbose true (.dir [100] [.file gitignoreName []]) =
      RunResult.ok 0 0 := by
  constructor
  · simp +decide [linecount_verbose, fetch_gitignore, List.find?,
      FSEntry.name, isValidUtf8]
  · simp +decide [linecount_verbose, fetch_gitignore, List.find?,
      FSEntry.name, isValidUtf8, parsePatterns, splitNl, renderOrder,
      isFileE, lcvEntries, is_visible, gitignoreName, displayName,
      lines_count, linesOf, fileBytes, from_utf8_lossy_len]

/-- C10 amended: `linecount`'s totals are independent of the ignore
toggle; in the renderer a file with a valid, render-limit-sized name
other than `.gitignore` is counted in the totals whatever the pattern
list says, a matched name (short enough to be rendered verbatim) being
suppressed only from the printed lines.  The renderer's outcome is not
fully independent of `.gitignore` contents: an unreadable `.gitignore`
fails the call, and a pattern can suppress the print — hence the panic —
of a long name split inside a character. -/
theorem claim_C10_gitignore_only_affects_printing :
    (∀ bt : Bool, ∀ t : FSEntry, linecount bt true t = linecount bt false t) ∧
    (∀ bt : Bool, ∀ n nm bs : List Nat, ∀ es : List FSEntry,
        isValidUtf8 nm = true → nm.length ≤ FILENAME_RENDER_LIMIT →
          nm ≠ gitignoreName →
          linecount_verbose bt (.dir n (.file nm bs :: es)) =
            addFile (lines_count bs) (fileBytes bt bs)
              (linecount_verbose bt (.dir n es))) ∧
    (∀ ig : List (List Nat), ∀ es : List FSEntry, ∀ nm : List Nat,
        ig.contains nm = true → nm.length ≤ FILENAME_RENDER_LIMIT →
          nm ∉ filePrints ig es) := by
  refine ⟨?_, ?_, ?_⟩
  · intro bt t
    cases t with
    | file n bs => rfl
    | badFile n => rfl
    | badDir n => rfl
    | dir n es =>
      simp only [linecount]
      exact linecountEntries_ig bt true false es
  · intro bt n nm bs es hv hlen hgi
    refine linecount_verbose_insert_file bt n nm bs es hv ?_ hgi
    intro _
    rw [displayName_of_short hlen]
    rfl
  · intro ig es nm hig hlen hmem
    obtain ⟨nm2, bs2, hmem2, hdn, hvis, hig2⟩ := filePrints_sound ig es nm hmem
    rw [displayName] at hdn
    split at hdn
    · rename_i h2
      split at hdn
      · exact absurd hdn (by simp)
      · rw [Option.some_inj] at hdn
        have hl : nm.length = FILENAME_RENDER_LIMIT + 3 := by
          rw [← hdn]
          simp [List.length_take]
          omega
        omega
    · rw [Option.some_inj] at hdn
      subst hdn
      rw [hig] at hig2
      exact absurd hig2 (by simp)

/-- Witness for C10: a tame file is counted by the renderer, and a file
named `t` listed in the gitignore vector is absent from the printed names
of its directory. -/
theorem claim_C10_witness :
    linecount_verbose true (.dir [100] [.file [120] [97, 10]]) =
      RunResult.ok 1 2 ∧
    [116] ∉ filePrints [[116]] [.file [116] [97]] := by
  constructor
  · have h := claim_C10_gitignore_only_affects_printing.2.1 true [100] [120]
      [97, 10] [] (by decide) (by decide) (by decide)
    rw [h]
    simp +decide [linecount_verbose, fetch_gitignore, List.find?,
      FSEntry.name, renderOrder, lcvEntries, addFile, lines_count, linesOf,
      splitNl, fileBytes, from_utf8_lossy_len]
  · exact claim_C10_gitignore_only_affects_printing.2.2 [[116]]
      [.file [116] [97]] [116] (by decide) (by decide)

end LC
